import Mathlib

/-!
# Verification of the iLBC helper functions (`helpfun.c`)

A shallow embedding, over the rationals, of the LPC-analysis and
quantization helper functions of the iLBC codec (`src/helpfun.c`):
autocorrelation, Levinson-Durbin, interpolation, scalar / vector
quantization and the LSF stability guard.  Arrays are modelled as
functions `ℕ → ℚ` (or `ℤ → ℚ` where the C code can form a negative
index) updated with `Function.update`, and the C `for`/`while` loops as
folds over `List.range`.  Floating-point rounding is abstracted away:
all arithmetic is exact.
-/

namespace Ilbc

/-- Modelled from the spec: the "fixed small positive epsilon" `EPS` used by
`levdurb` for the degenerate-energy test; its numeric value lives in a
header that is not part of this source tree (the reference codec uses
0.039). -/
def EPS : ℚ := mkRat 39 1000

/-- Modelled from the spec: the `FLOAT_MAX` sentinel used by `vq` to
initialise the running minimum distance; its numeric value lives in a
header that is not part of this source tree.  We use the value of the
largest finite IEEE-754 single-precision number. -/
def FLOAT_MAX : ℚ := 340282346638528859811704183484516925440

/-! ## `autocorr`: autocorrelation -/

/-- One lag of `autocorr`: the C inner loop
`sum = 0; for (n = 0; n < N - lag; n++) sum += x[n]*x[n+lag];`
(for `lag > N` the C loop bound `N - lag` is negative and the loop body
never runs; natural subtraction gives the same empty range). -/
def autocorrLag (x : ℕ → ℚ) (N lag : ℕ) : ℚ :=
  (List.range (N - lag)).foldl (fun sum n => sum + x n * x (n + lag)) 0

/-- `autocorr(r, x, N, order)`: fills `r[lag]` for `0 ≤ lag ≤ order`. -/
def autocorr (x : ℕ → ℚ) (N _order : ℕ) : ℕ → ℚ :=
  fun lag => autocorrLag x N lag

/-! ## `interpolate`: convex combination of two vectors -/

/-- `interpolate(out, in1, in2, coef, length)`:
`out[i] = coef*in1[i] + invcoef*in2[i]` with `invcoef = 1 - coef`,
for `i` below the (common) length of the two vectors. -/
def interpolate (in1 in2 : List ℚ) (coef : ℚ) : List ℚ :=
  List.zipWith (fun u v => coef * u + (1 - coef) * v) in1 in2

/-! ## Generic fold lemmas -/

theorem foldl_add_range (f : ℕ → ℚ) (init : ℚ) :
    ∀ m : ℕ, (List.range m).foldl (fun s n => s + f n) init
      = init + ∑ n ∈ Finset.range m, f n := by
  intro m
  induction m with
  | zero => simp
  | succ m ih =>
      rw [List.range_succ, List.foldl_append, ih, Finset.sum_range_succ]
      simp [add_assoc]

theorem interpolate_getD (in1 : List ℚ) :
    ∀ (in2 : List ℚ) (coef : ℚ) (i : ℕ), i < in1.length → i < in2.length →
      (interpolate in1 in2 coef).getD i 0
        = coef * in1.getD i 0 + (1 - coef) * in2.getD i 0 := by
  induction in1 with
  | nil => intro in2 coef i h1 _; simp at h1
  | cons a t ih =>
      intro in2 coef i h1 h2
      cases in2 with
      | nil => simp at h2
      | cons b t2 =>
          cases i with
          | zero => simp [interpolate]
          | succ i =>
              simp only [interpolate, List.zipWith_cons_cons, List.getD_cons_succ]
              exact ih t2 coef i (by simpa using h1) (by simpa using h2)

theorem interpolate_coef_one (in1 : List ℚ) :
    ∀ in2 : List ℚ, in1.length = in2.length → interpolate in1 in2 1 = in1 := by
  induction in1 with
  | nil => intro in2 h; simp [interpolate]
  | cons a t ih =>
      intro in2 h
      cases in2 with
      | nil => simp at h
      | cons b t2 =>
          simp only [interpolate, List.zipWith_cons_cons]
          refine congrArg₂ _ (by ring) ?_
          exact ih t2 (by simpa using h)

theorem interpolate_coef_zero (in1 : List ℚ) :
    ∀ in2 : List ℚ, in1.length = in2.length → interpolate in1 in2 0 = in2 := by
  induction in1 with
  | nil =>
      intro in2 h
      cases in2 with
      | nil => simp [interpolate]
      | cons b t2 => simp at h
  | cons a t ih =>
      intro in2 h
      cases in2 with
      | nil => simp at h
      | cons b t2 =>
          simp only [interpolate, List.zipWith_cons_cons]
          refine congrArg₂ _ (by ring) ?_
          exact ih t2 (by simpa using h)

/-- C7: `autocorr` computes `r[l] = Σ_{n=0}^{N-l-1} x[n]*x[n+l]`; hence
`r[0] ≥ 0` (a sum of squares), and an all-zero frame yields an all-zero
autocorrelation vector. -/
theorem autocorr_spec (x : ℕ → ℚ) (N order : ℕ) :
    (∀ lag, lag ≤ order →
      autocorr x N order lag = ∑ n ∈ Finset.range (N - lag), x n * x (n + lag))
    ∧ 0 ≤ autocorr x N order 0
    ∧ ((∀ n, x n = 0) → ∀ lag, lag ≤ order → autocorr x N order lag = 0) := by
  have hform : ∀ lag,
      autocorr x N order lag = ∑ n ∈ Finset.range (N - lag), x n * x (n + lag) := by
    intro lag
    unfold autocorr autocorrLag
    rw [foldl_add_range, zero_add]
  refine ⟨fun lag _ => hform lag, ?_, ?_⟩
  · rw [hform 0]
    exact Finset.sum_nonneg fun n _ => by simpa using mul_self_nonneg (x n)
  · intro hz lag _
    rw [hform lag]
    exact Finset.sum_eq_zero fun n _ => by rw [hz n, zero_mul]

/-- Witness for C7 at the all-zero frame with `N = 4`, `order = 2`. -/
theorem autocorr_spec_witness : autocorr (fun _ => 0) 4 2 1 = 0 :=
  (autocorr_spec (fun _ => 0) 4 2).2.2 (fun _ => rfl) 1 (by decide)

/-- C8: `interpolate` computes `out[i] = coef*in1[i] + (1-coef)*in2[i]`
elementwise; for `coef = 1` the output equals `in1` and for `coef = 0`
it equals `in2`. -/
theorem interpolate_spec (in1 in2 : List ℚ) (coef : ℚ)
    (h : in1.length = in2.length) :
    (∀ i, i < in1.length →
      (interpolate in1 in2 coef).getD i 0
        = coef * in1.getD i 0 + (1 - coef) * in2.getD i 0)
    ∧ interpolate in1 in2 1 = in1
    ∧ interpolate in1 in2 0 = in2 :=
  ⟨fun i hi => interpolate_getD in1 in2 coef i hi (h ▸ hi),
   interpolate_coef_one in1 in2 h,
   interpolate_coef_zero in1 in2 h⟩

/-- Witness for C8 on the concrete vectors `[1, 2]` and `[3, 4]`. -/
theorem interpolate_spec_witness :
    interpolate [(1 : ℚ), 2] [3, 4] 1 = [1, 2] :=
  (interpolate_spec [(1 : ℚ), 2] [3, 4] (1/2) rfl).2.1

/-! ## `levdurb`: Levinson-Durbin recursion -/

/-- State of the Levinson-Durbin recursion: the coefficient vector `a`,
the reflection vector `k` and the running prediction error `alpha`. -/
structure LDState where
  a : ℕ → ℚ
  k : ℕ → ℚ
  alpha : ℚ

/-- One iteration of the in-place butterfly of `levdurb`:
`sum = a[i+1] + k[m]*a[m-i]; a[m-i] += k[m]*a[i+1]; a[i+1] = sum;`. -/
def levdurbButterfly (km : ℚ) (m : ℕ) (a : ℕ → ℚ) (i : ℕ) : ℕ → ℚ :=
  let s := a (i + 1) + km * a (m - i)
  let a1 := Function.update a (m - i) (a (m - i) + km * a (i + 1))
  Function.update a1 (i + 1) s

/-- One outer iteration (index `m`) of the `levdurb` recursion. -/
def levdurbStep (r : ℕ → ℚ) (st : LDState) (m : ℕ) : LDState :=
  let sum := (List.range m).foldl (fun s i => s + st.a (i + 1) * r (m - i)) (r (m + 1))
  let km := -sum / st.alpha
  let alpha := st.alpha + km * sum
  let m_h := (m + 1) / 2
  let a := (List.range m_h).foldl (levdurbButterfly km m) st.a
  ⟨Function.update a (m + 1) km, Function.update st.k m km, alpha⟩

/-- `levdurb(a, k, r, order)`: returns `(a, k)`.  If `r[0] < EPS` the
recursion is skipped and all reflection / higher-order LPC coefficients
are zero; otherwise the standard recursion runs for `m = 1, …, order-1`
starting from `a[1] = k[0] = -r[1]/r[0]`. -/
def levdurb (r : ℕ → ℚ) (order : ℕ) : (ℕ → ℚ) × (ℕ → ℚ) :=
  let a0 : ℕ → ℚ := fun n => if n = 0 then 1 else 0
  if r 0 < EPS then
    (a0, fun _ => 0)
  else
    let k0 := -r 1 / r 0
    let st0 : LDState :=
      ⟨Function.update a0 1 k0, Function.update (fun _ => 0) 0 k0, r 0 + r 1 * k0⟩
    let st := (List.range (order - 1)).foldl (fun s j => levdurbStep r s (j + 1)) st0
    (st.a, st.k)

/-- C3: for `r[0] < EPS` the recursion is skipped: every reflection
coefficient is zero, `a[0] = 1`, and `a[1..order]` is all zero. -/
theorem levdurb_degenerate (r : ℕ → ℚ) (order : ℕ) (h : r 0 < EPS) :
    (∀ i, i < order → (levdurb r order).2 i = 0)
    ∧ (levdurb r order).1 0 = 1
    ∧ (∀ i, 1 ≤ i → i ≤ order → (levdurb r order).1 i = 0) := by
  unfold levdurb
  rw [if_pos h]
  exact ⟨fun i _ => rfl, rfl, fun i hi _ => if_neg (by omega)⟩

/-- Witness for C3 at the all-zero autocorrelation vector with order 2. -/
theorem levdurb_degenerate_witness :
    (levdurb (fun _ => 0) 2).2 0 = 0 ∧ (levdurb (fun _ => 0) 2).1 0 = 1
    ∧ (levdurb (fun _ => 0) 2).1 2 = 0 :=
  ⟨(levdurb_degenerate (fun _ => 0) 2 (by decide)).1 0 (by decide),
   (levdurb_degenerate (fun _ => 0) 2 (by decide)).2.1,
   (levdurb_degenerate (fun _ => 0) 2 (by decide)).2.2 2 (by decide) (by decide)⟩

/-! ## `sort_sq`: scalar quantization

The codebook is modelled as a total function `ℤ → ℚ` because the C code
can form the index `i - 1 = -1` (an out-of-bounds read) when
`cb_size = 1`; the list `sortSqReads` records which indices the code
reads. -/

/-- The scan loop of `sort_sq`:
`i = 0; while ((x > cb[i]) && i < cb_size - 1) i++;`
written with explicit fuel (`fuel = cb_size` always suffices, since `i`
only counts up to `cb_size - 1`). -/
def scanAux (x : ℚ) (cb : ℤ → ℚ) (last : ℕ) : ℕ → ℕ → ℕ
  | 0, i => i
  | fuel + 1, i => if x > cb (i : ℤ) ∧ i < last then scanAux x cb last fuel (i + 1) else i

/-- The value of the loop counter `i` when the scan loop of `sort_sq`
terminates. -/
def scanIdx (x : ℚ) (cb : ℤ → ℚ) (cb_size : ℕ) : ℕ :=
  scanAux x cb (cb_size - 1) cb_size 0

/-- `sort_sq(xq, index, x, cb, cb_size)`, returning `(index, xq)`. -/
def sort_sq (x : ℚ) (cb : ℤ → ℚ) (cb_size : ℕ) : ℤ × ℚ :=
  if x ≤ cb 0 then (0, cb 0)
  else
    let i := scanIdx x cb cb_size
    if x > (cb (i : ℤ) + cb ((i : ℤ) - 1)) / 2 then ((i : ℤ), cb (i : ℤ))
    else ((i : ℤ) - 1, cb ((i : ℤ) - 1))

/-- The codebook indices read by `sort_sq`: `cb[0]` in the entry test;
`cb[0], …, cb[i]` by the loop-condition evaluations; `cb[i]` and
`cb[i-1]` by the midpoint comparison. -/
def sortSqReads (x : ℚ) (cb : ℤ → ℚ) (cb_size : ℕ) : List ℤ :=
  if x ≤ cb 0 then [0]
  else
    (List.range (scanIdx x cb cb_size + 1)).map (fun n : ℕ => (n : ℤ))
      ++ [(scanIdx x cb cb_size : ℤ), (scanIdx x cb cb_size : ℤ) - 1]

theorem scanAux_spec (x : ℚ) (cb : ℤ → ℚ) (last : ℕ) :
    ∀ fuel i, i ≤ last → last ≤ fuel + i →
      i ≤ scanAux x cb last fuel i ∧ scanAux x cb last fuel i ≤ last
      ∧ (∀ j : ℕ, i ≤ j → j < scanAux x cb last fuel i → x > cb (j : ℤ))
      ∧ (x ≤ cb (scanAux x cb last fuel i : ℤ) ∨ scanAux x cb last fuel i = last) := by
  intro fuel
  induction fuel with
  | zero =>
      intro i hi hlast
      have : i = last := le_antisymm hi (by omega)
      simp only [scanAux]
      exact ⟨le_refl i, hi, fun j h1 h2 => absurd h1 (by omega), Or.inr this⟩
  | succ fuel ih =>
      intro i hi hlast
      by_cases hc : x > cb (i : ℤ) ∧ i < last
      · have hstep : scanAux x cb last (fuel + 1) i = scanAux x cb last fuel (i + 1) := by
          simp only [scanAux, if_pos hc]
        obtain ⟨h1, h2, h3, h4⟩ := ih (i + 1) (by omega) (by omega)
        rw [hstep]
        refine ⟨by omega, h2, ?_, h4⟩
        intro j hj1 hj2
        rcases Nat.eq_or_lt_of_le hj1 with h | h
        · exact h ▸ hc.1
        · exact h3 j h hj2
      · have hstep : scanAux x cb last (fuel + 1) i = i := by
          simp only [scanAux, if_neg hc]
        rw [hstep]
        refine ⟨le_refl i, hi, fun j h1 h2 => absurd h1 (by omega), ?_⟩
        rcases not_and_or.mp hc with h | h
        · exact Or.inl (not_lt.mp h)
        · exact Or.inr (by omega)

theorem scanIdx_spec (x : ℚ) (cb : ℤ → ℚ) (cb_size : ℕ) :
    scanIdx x cb cb_size ≤ cb_size - 1
    ∧ (∀ j : ℕ, j < scanIdx x cb cb_size → x > cb (j : ℤ))
    ∧ (x ≤ cb (scanIdx x cb cb_size : ℤ) ∨ scanIdx x cb cb_size = cb_size - 1) := by
  obtain ⟨_, h2, h3, h4⟩ :=
    scanAux_spec x cb (cb_size - 1) cb_size 0 (Nat.zero_le _) (by omega)
  exact ⟨h2, fun j hj => h3 j (Nat.zero_le j) hj, h4⟩

theorem scanIdx_one_le (x : ℚ) (cb : ℤ → ℚ) (cb_size : ℕ)
    (h2 : 2 ≤ cb_size) (hx : cb 0 < x) : 1 ≤ scanIdx x cb cb_size := by
  obtain ⟨-, -, h4⟩ := scanIdx_spec x cb cb_size
  by_contra h
  have h0 : scanIdx x cb cb_size = 0 := by omega
  rcases h4 with h | h
  · rw [h0] at h; exact absurd hx (not_lt.mpr (by exact_mod_cast h))
  · omega

/-- C2 counterexample: with the ascending codebook `cb = [0, 2]` and
`x = 1`, the scan stops at `i = 1` and `x` equals the midpoint
`(cb[1] + cb[0])/2` exactly, yet `sort_sq` selects the LOWER index
`i - 1 = 0`, not the higher index `i = 1` asserted by the claim. -/
theorem sort_sq_midpoint_counterexample :
    scanIdx 1 (fun i => if i = 1 then 2 else 0) 2 = 1
    ∧ (1 : ℚ) = ((fun i : ℤ => if i = 1 then (2 : ℚ) else 0) 1
        + (fun i : ℤ => if i = 1 then (2 : ℚ) else 0) 0) / 2
    ∧ (sort_sq 1 (fun i => if i = 1 then 2 else 0) 2).1 = 0 := by
  refine ⟨by decide, by norm_num, ?_⟩
  have hs : scanIdx 1 (fun i : ℤ => if i = 1 then (2 : ℚ) else 0) 2 = 1 := by decide
  rw [sort_sq, if_neg (by norm_num)]
  rw [hs]
  norm_num

/-- C2 amended: for an ascending codebook of size `cb_size ≥ 2` with
`cb[0] < x`, the loop index `i` is the smallest index with `x ≤ cb[i]`
(or `cb_size - 1` if none), the result is chosen between `cb[i]` and
`cb[i-1]` by comparing `x` with their midpoint, and exactly at the
midpoint the LOWER index `i - 1` is selected. -/
theorem sort_sq_spec (x : ℚ) (cb : ℤ → ℚ) (cb_size : ℕ)
    (hsize : 2 ≤ cb_size)
    (hasc : ∀ i j : ℕ, i < j → j < cb_size → cb (i : ℤ) ≤ cb (j : ℤ))
    (hx : cb 0 < x) :
    1 ≤ scanIdx x cb cb_size ∧ scanIdx x cb cb_size ≤ cb_size - 1
    ∧ (∀ j : ℕ, j < scanIdx x cb cb_size → cb (j : ℤ) < x)
    ∧ (x ≤ cb (scanIdx x cb cb_size : ℤ) ∨ scanIdx x cb cb_size = cb_size - 1)
    ∧ ((cb (scanIdx x cb cb_size : ℤ) + cb ((scanIdx x cb cb_size : ℤ) - 1)) / 2 < x →
        sort_sq x cb cb_size
          = ((scanIdx x cb cb_size : ℤ), cb (scanIdx x cb cb_size : ℤ)))
    ∧ (x ≤ (cb (scanIdx x cb cb_size : ℤ) + cb ((scanIdx x cb cb_size : ℤ) - 1)) / 2 →
        sort_sq x cb cb_size
          = ((scanIdx x cb cb_size : ℤ) - 1, cb ((scanIdx x cb cb_size : ℤ) - 1))) := by
  obtain ⟨h1, h2, h3⟩ := scanIdx_spec x cb cb_size
  have hge1 : 1 ≤ scanIdx x cb cb_size := scanIdx_one_le x cb cb_size hsize hx
  refine ⟨hge1, h1, h2, h3, ?_, ?_⟩
  · intro hmid
    rw [sort_sq, if_neg (not_le.mpr hx)]
    simp only [if_pos hmid]
  · intro hmid
    rw [sort_sq, if_neg (not_le.mpr hx)]
    simp only [if_neg (not_lt.mpr hmid)]

/-- Witness for the amended C2 on the codebook `[0, 2]` with `x = 3`. -/
theorem sort_sq_spec_witness :
    sort_sq 3 (fun i => if i = 1 then 2 else 0) 2 = (1, 2) := by
  have hasc : ∀ i j : ℕ, i < j → j < 2 →
      (fun i : ℤ => if i = 1 then (2 : ℚ) else 0) (i : ℤ)
        ≤ (fun i : ℤ => if i = 1 then (2 : ℚ) else 0) (j : ℤ) := by
    intro i j hij hj
    have hj1 : j = 1 := by omega
    have hi0 : i = 0 := by omega
    subst hj1; subst hi0; norm_num
  have h := sort_sq_spec 3 (fun i : ℤ => if i = 1 then (2 : ℚ) else 0) 2
    (by norm_num) hasc (by norm_num)
  have hs : scanIdx 3 (fun i : ℤ => if i = 1 then (2 : ℚ) else 0) 2 = 1 := by decide
  have h5 := h.2.2.2.2.1
  rw [hs] at h5
  have := h5 (by norm_num)
  simpa using this

/-- C6: round-trip idempotence of `sort_sq` — on a strictly ascending
codebook, quantizing `cb[j]` returns index `j` and value `cb[j]`; and
any `x ≤ cb[0]` returns index 0 and value `cb[0]`. -/
theorem sort_sq_roundtrip (cb : ℤ → ℚ) (cb_size : ℕ)
    (hsize : 1 ≤ cb_size)
    (hasc : ∀ i j : ℕ, i < j → j < cb_size → cb (i : ℤ) < cb (j : ℤ)) :
    (∀ j : ℕ, j < cb_size → sort_sq (cb (j : ℤ)) cb cb_size = ((j : ℤ), cb (j : ℤ)))
    ∧ (∀ x : ℚ, x ≤ cb 0 → sort_sq x cb cb_size = (0, cb 0)) := by
  constructor
  · intro j hj
    rcases Nat.eq_zero_or_pos j with hj0 | hjpos
    · subst hj0
      simp only [Nat.cast_zero]
      rw [sort_sq, if_pos (le_refl _)]
    · -- `cb 0 < cb j`, so the else branch runs
      have hx : cb 0 < cb (j : ℤ) := by
        have := hasc 0 j hjpos hj
        simpa using this
      -- the scan stops exactly at `j`
      obtain ⟨h1, h2, h3⟩ := scanIdx_spec (cb (j : ℤ)) cb cb_size
      have hij : scanIdx (cb (j : ℤ)) cb cb_size = j := by
        set r := scanIdx (cb (j : ℤ)) cb cb_size with hr
        rcases lt_trichotomy r j with h | h | h
        · rcases h3 with hle | hlast
          · exact absurd (hasc r j h hj) (not_lt.mpr hle)
          · omega
        · exact h
        · exact absurd (h2 j h) (lt_irrefl _)
      rw [sort_sq, if_neg (not_le.mpr hx), hij]
      have hprev : cb ((j : ℤ) - 1) < cb (j : ℤ) := by
        have h0 : ((j : ℤ) - 1) = ((j - 1 : ℕ) : ℤ) := by omega
        rw [h0]
        exact hasc (j - 1) j (by omega) hj
      rw [if_pos (by linarith)]
  · intro x hx
    rw [sort_sq, if_pos hx]

/-- Witness for C6 on the strictly ascending codebook `[0, 2]`. -/
theorem sort_sq_roundtrip_witness :
    sort_sq ((fun i : ℤ => if i = 1 then (2 : ℚ) else 0) 1)
      (fun i => if i = 1 then 2 else 0) 2 = (1, 2) := by
  have hasc : ∀ i j : ℕ, i < j → j < 2 →
      (fun i : ℤ => if i = 1 then (2 : ℚ) else 0) (i : ℤ)
        < (fun i : ℤ => if i = 1 then (2 : ℚ) else 0) (j : ℤ) := by
    intro i j hij hj
    have hj1 : j = 1 := by omega
    have hi0 : i = 0 := by omega
    subst hj1; subst hi0; norm_num
  have h := (sort_sq_roundtrip (fun i : ℤ => if i = 1 then (2 : ℚ) else 0) 2
    (by norm_num) hasc).1 1 (by norm_num)
  simpa using h

/-- C10: for `cb_size ≥ 2` every index `sort_sq` reads lies in
`[0, cb_size - 1]` (the midpoint's `i - 1` is safe because the scan
leaves the loop with `i ≥ 1` whenever `cb[0] < x`); for `cb_size = 1`
and `cb[0] < x` the scan terminates with `i = 0` and the midpoint
comparison reads the out-of-bounds index `-1`. -/
theorem sort_sq_access_bounds (x : ℚ) (cb : ℤ → ℚ) (cb_size : ℕ) :
    (2 ≤ cb_size → (∀ i j : ℕ, i < j → j < cb_size → cb (i : ℤ) ≤ cb (j : ℤ)) →
      ∀ t ∈ sortSqReads x cb cb_size, 0 ≤ t ∧ t ≤ (cb_size : ℤ) - 1)
    ∧ (cb_size = 1 → cb 0 < x →
      scanIdx x cb 1 = 0 ∧ (-1 : ℤ) ∈ sortSqReads x cb 1) := by
  constructor
  · intro hsize _ t ht
    by_cases hx : x ≤ cb 0
    · rw [sortSqReads, if_pos hx] at ht
      simp only [List.mem_singleton] at ht
      subst ht
      constructor <;> omega
    · rw [sortSqReads, if_neg hx] at ht
      have hx' : cb 0 < x := not_le.mp hx
      have h1 : 1 ≤ scanIdx x cb cb_size := scanIdx_one_le x cb cb_size hsize hx'
      have h2 : scanIdx x cb cb_size ≤ cb_size - 1 := (scanIdx_spec x cb cb_size).1
      rcases List.mem_append.mp ht with hL | hR
      · simp only [List.mem_map, List.mem_range] at hL
        obtain ⟨n, hn, rfl⟩ := hL
        constructor
        · exact Int.ofNat_nonneg n
        · omega
      · rcases List.mem_cons.mp hR with h | h
        · subst h; constructor <;> omega
        · have h' : t = (scanIdx x cb cb_size : ℤ) - 1 := by simpa using h
          subst h'
          constructor <;> omega
  · intro hsz hx
    subst hsz
    have h2 : scanIdx x cb 1 ≤ 0 := (scanIdx_spec x cb 1).1
    have h0 : scanIdx x cb 1 = 0 := by omega
    refine ⟨h0, ?_⟩
    rw [sortSqReads, if_neg (not_le.mpr hx), h0]
    simp

/-- Witness for C10 at `cb_size = 1`, `cb = [0]`, `x = 1`: the scan
stops at 0 and the out-of-bounds index `-1` is read. -/
theorem sort_sq_access_bounds_witness :
    scanIdx 1 (fun _ => 0) 1 = 0 ∧ (-1 : ℤ) ∈ sortSqReads 1 (fun _ => 0) 1 :=
  (sort_sq_access_bounds 1 (fun _ => 0) 1).2 rfl (by norm_num)

/-! ## `vq`: vector quantization -/

/-- The squared distance computed by the inner loop of `vq`:
`dist = (X[0]-CB[pos])²; for (i = 1; i < dim; i++) dist += (X[i]-CB[pos+i])²;`
(the C code squares with `dist *= dist` / `tmp*tmp`). -/
def vqDist (X CB : ℕ → ℚ) (dim pos : ℕ) : ℚ :=
  (List.range (dim - 1)).foldl
    (fun d i => d + (X (i + 1) - CB (pos + (i + 1))) * (X (i + 1) - CB (pos + (i + 1))))
    ((X 0 - CB pos) * (X 0 - CB pos))

/-- The search loop of `vq`: running `(minindex, mindist)` pair, seeded
with `(0, FLOAT_MAX)`, improved only on strict `<`. -/
def vqSearch (X CB : ℕ → ℚ) (n_cb dim : ℕ) : ℕ × ℚ :=
  (List.range n_cb).foldl
    (fun p j => if vqDist X CB dim (j * dim) < p.2 then (j, vqDist X CB dim (j * dim)) else p)
    (0, FLOAT_MAX)

/-- `vq(Xq, index, CB, X, n_cb, dim)`, returning `(Xq, index)`;
`Xq` is a copy of the winning codebook entry. -/
def vq (X CB : ℕ → ℚ) (n_cb dim : ℕ) : (ℕ → ℚ) × ℕ :=
  ((fun i => CB ((vqSearch X CB n_cb dim).1 * dim + i)), (vqSearch X CB n_cb dim).1)

theorem vqDist_eq_sum (X CB : ℕ → ℚ) (dim pos : ℕ) (hd : 1 ≤ dim) :
    vqDist X CB dim pos
      = ∑ i ∈ Finset.range dim, (X i - CB (pos + i)) * (X i - CB (pos + i)) := by
  unfold vqDist
  rw [foldl_add_range]
  obtain ⟨d, rfl⟩ : ∃ d, dim = d + 1 := ⟨dim - 1, by omega⟩
  rw [Finset.sum_range_succ']
  simp [add_comm]

theorem vqDist_nonneg (X CB : ℕ → ℚ) (dim pos : ℕ) (hd : 1 ≤ dim) :
    0 ≤ vqDist X CB dim pos := by
  rw [vqDist_eq_sum X CB dim pos hd]
  exact Finset.sum_nonneg fun i _ => mul_self_nonneg _

theorem vqDist_eq_zero_iff (X CB : ℕ → ℚ) (dim pos : ℕ) (hd : 1 ≤ dim) :
    vqDist X CB dim pos = 0 ↔ ∀ i, i < dim → X i = CB (pos + i) := by
  rw [vqDist_eq_sum X CB dim pos hd]
  rw [Finset.sum_eq_zero_iff_of_nonneg fun i _ => mul_self_nonneg _]
  constructor
  · intro h i hi
    have := h i (Finset.mem_range.mpr hi)
    have := mul_self_eq_zero.mp this
    linarith [sub_eq_zero.mp this]
  · intro h i hi
    rw [sub_eq_zero.mpr (h i (Finset.mem_range.mp hi))]
    ring

/-- Invariant of the `vq` search loop: either no entry so far beat the
`FLOAT_MAX` sentinel (and the running pair is still the seed), or the
running pair is the lowest-index strict minimum of the prefix. -/
theorem vqSearch_inv (X CB : ℕ → ℚ) (dim : ℕ) :
    ∀ n_cb : ℕ,
      ((vqSearch X CB n_cb dim).1 = 0 ∧ (vqSearch X CB n_cb dim).2 = FLOAT_MAX
        ∧ ∀ j, j < n_cb → ¬ vqDist X CB dim (j * dim) < FLOAT_MAX)
      ∨ ((vqSearch X CB n_cb dim).1 < n_cb
        ∧ (vqSearch X CB n_cb dim).2
            = vqDist X CB dim ((vqSearch X CB n_cb dim).1 * dim)
        ∧ (vqSearch X CB n_cb dim).2 < FLOAT_MAX
        ∧ (∀ j, j < n_cb → (vqSearch X CB n_cb dim).2 ≤ vqDist X CB dim (j * dim))
        ∧ (∀ j, j < (vqSearch X CB n_cb dim).1 →
            (vqSearch X CB n_cb dim).2 < vqDist X CB dim (j * dim))) := by
  intro n_cb
  induction n_cb with
  | zero =>
      left
      exact ⟨rfl, rfl, fun j hj => absurd hj (by omega)⟩
  | succ n ih =>
      have hstep : vqSearch X CB (n + 1) dim
          = (if vqDist X CB dim (n * dim) < (vqSearch X CB n dim).2
              then (n, vqDist X CB dim (n * dim)) else vqSearch X CB n dim) := by
        unfold vqSearch
        rw [List.range_succ, List.foldl_append]
        rfl
      by_cases hc : vqDist X CB dim (n * dim) < (vqSearch X CB n dim).2
      · rw [hstep, if_pos hc]
        rcases ih with ⟨h1, h2, h3⟩ | ⟨h1, h2, h3, h4, h5⟩
        · right
          rw [h2] at hc
          refine ⟨by omega, rfl, hc, ?_, ?_⟩
          · intro j hj
            rcases Nat.lt_succ_iff_lt_or_eq.mp hj with h | h
            · exact le_of_lt (lt_of_lt_of_le hc (not_lt.mp (h3 j h)))
            · subst h; exact le_refl _
          · intro j hj
            exact lt_of_lt_of_le hc (not_lt.mp (h3 j hj))
        · right
          refine ⟨by omega, rfl, lt_trans hc h3, ?_, ?_⟩
          · intro j hj
            rcases Nat.lt_succ_iff_lt_or_eq.mp hj with h | h
            · exact le_of_lt (lt_of_lt_of_le hc (h4 j h))
            · subst h; exact le_refl _
          · intro j hj
            exact lt_of_lt_of_le hc (h4 j hj)
      · rw [hstep, if_neg hc]
        rcases ih with ⟨h1, h2, h3⟩ | ⟨h1, h2, h3, h4, h5⟩
        · left
          refine ⟨h1, h2, ?_⟩
          intro j hj
          rcases Nat.lt_succ_iff_lt_or_eq.mp hj with h | h
          · exact h3 j h
          · subst h; rw [← h2]; exact hc
        · right
          refine ⟨by omega, h2, h3, ?_, h5⟩
          intro j hj
          rcases Nat.lt_succ_iff_lt_or_eq.mp hj with h | h
          · exact h4 j h
          · subst h; exact not_lt.mp hc

/-- C5: `vq` performs exhaustive nearest-neighbor search under squared
Euclidean distance with strict-improvement updates, so it returns the
lowest index attaining the minimum distance (provided some entry beats
the `FLOAT_MAX` seed), and `Xq` is that entry; in particular, if `X`
equals some codebook entry exactly, the returned index is the lowest
exactly-matching index and `Xq = X` elementwise. -/
theorem vq_spec (X CB : ℕ → ℚ) (n_cb dim : ℕ) (hn : 1 ≤ n_cb) (hd : 1 ≤ dim) :
    (∀ pos, vqDist X CB dim pos
      = ∑ i ∈ Finset.range dim, (X i - CB (pos + i)) * (X i - CB (pos + i)))
    ∧ ((∃ j, j < n_cb ∧ vqDist X CB dim (j * dim) < FLOAT_MAX) →
        ((vq X CB n_cb dim).2 < n_cb
        ∧ (∀ i, (vq X CB n_cb dim).1 i = CB ((vq X CB n_cb dim).2 * dim + i))
        ∧ (∀ j, j < n_cb → vqDist X CB dim ((vq X CB n_cb dim).2 * dim)
            ≤ vqDist X CB dim (j * dim))
        ∧ (∀ j, j < (vq X CB n_cb dim).2 →
            vqDist X CB dim ((vq X CB n_cb dim).2 * dim) < vqDist X CB dim (j * dim))))
    ∧ (∀ j0, j0 < n_cb → (∀ i, i < dim → X i = CB (j0 * dim + i)) →
        ((∀ i, i < dim → X i = CB ((vq X CB n_cb dim).2 * dim + i))
        ∧ (∀ j, j < (vq X CB n_cb dim).2 → ¬ ∀ i, i < dim → X i = CB (j * dim + i))
        ∧ (∀ i, i < dim → (vq X CB n_cb dim).1 i = X i))) := by
  have hmin := vqSearch_inv X CB dim n_cb
  refine ⟨fun pos => vqDist_eq_sum X CB dim pos hd, ?_, ?_⟩
  · rintro ⟨j, hj, hjlt⟩
    rcases hmin with ⟨-, -, h3⟩ | ⟨h1, h2, -, h4, h5⟩
    · exact absurd hjlt (h3 j hj)
    · refine ⟨h1, fun i => rfl, ?_, ?_⟩
      · intro j' hj'
        have := h4 j' hj'
        rw [h2] at this
        exact this
      · intro j' hj'
        have := h5 j' hj'
        rw [h2] at this
        exact this
  · intro j0 hj0 hmatch
    have hd0 : vqDist X CB dim (j0 * dim) = 0 := by
      rw [vqDist_eq_zero_iff X CB dim (j0 * dim) hd]
      intro i hi
      exact hmatch i hi
    have hex : ∃ j, j < n_cb ∧ vqDist X CB dim (j * dim) < FLOAT_MAX := by
      refine ⟨j0, hj0, ?_⟩
      rw [hd0]
      unfold FLOAT_MAX
      norm_num
    rcases hmin with ⟨-, -, h3⟩ | ⟨h1, h2, -, h4, h5⟩
    · exact absurd (by rw [hd0]; unfold FLOAT_MAX; norm_num) (h3 j0 hj0)
    · have hminzero : vqDist X CB dim ((vqSearch X CB n_cb dim).1 * dim) = 0 := by
        have hle := h4 j0 hj0
        rw [h2, hd0] at hle
        have hge := vqDist_nonneg X CB dim ((vqSearch X CB n_cb dim).1 * dim) hd
        linarith
      have hmimatch : ∀ i, i < dim → X i = CB ((vqSearch X CB n_cb dim).1 * dim + i) :=
        (vqDist_eq_zero_iff X CB dim _ hd).mp hminzero
      refine ⟨hmimatch, ?_, ?_⟩
      · intro j hj hcontra
        have hjz : vqDist X CB dim (j * dim) = 0 :=
          (vqDist_eq_zero_iff X CB dim _ hd).mpr hcontra
        have := h5 j hj
        rw [h2, hminzero, hjz] at this
        exact absurd this (lt_irrefl 0)
      · intro i hi
        exact (hmimatch i hi).symm

/-- Witness for C5: codebook entries `[3]` and `[1]` with input `[1]`
match entry 1 exactly, and the quantized output equals the input. -/
theorem vq_spec_witness :
    (vq (fun _ => 1) (fun p => if p = 0 then 3 else 1) 2 1).1 0 = 1 := by
  have hmatch : ∀ i, i < 1 →
      (fun _ : ℕ => (1 : ℚ)) i = (fun p : ℕ => if p = 0 then (3 : ℚ) else 1) (1 * 1 + i) := by
    intro i hi
    interval_cases i
    norm_num
  have h := (vq_spec (fun _ => 1) (fun p => if p = 0 then 3 else 1) 2 1
    (by norm_num) (by norm_num)).2.2 1 (by norm_num) hmatch
  exact h.2.2 0 (by norm_num)

/-! ## `LSF_check`: the stability guard

The LSF table is a function `ℕ → ℚ` (flat storage, `lsf[m*dim + k]`),
and the state threaded through the loops is the table together with the
sticky `change` flag. -/

/-- `eps = 0.039f` ("50 Hz"): minimum adjacent LSF separation. -/
def eps : ℚ := mkRat 39 1000

/-- `eps2 = 0.0195f`: half-gap used by the repair. -/
def eps2 : ℚ := mkRat 195 10000

/-- `maxlsf = 3.14f` ("4000 Hz"). -/
def maxlsf : ℚ := mkRat 314 100

/-- `minlsf = 0.01f` ("0 Hz"). -/
def minlsf : ℚ := mkRat 1 100

/-- The separation repair of `LSF_check` for the pair at `pos`,
including the `change` flag it produces.  The inverted branch executes
`lsf[pos+1] = lsf[pos] + eps2; lsf[pos] = lsf[pos+1] - eps2;`
sequentially (the first assignment is visible to the second). -/
def sepStep (l : ℕ → ℚ) (pos : ℕ) : (ℕ → ℚ) × Bool :=
  if l (pos + 1) - l pos < eps then
    if l (pos + 1) < l pos then
      let l1 := Function.update l (pos + 1) (l pos + eps2)
      (Function.update l1 pos (l1 (pos + 1) - eps2), true)
    else
      let l1 := Function.update l pos (l pos - eps2)
      (Function.update l1 (pos + 1) (l1 (pos + 1) + eps2), true)
  else (l, false)

/-- `if (lsf[pos] < minlsf) { lsf[pos] = minlsf; change = 1; }`. -/
def clampMin (l : ℕ → ℚ) (pos : ℕ) : (ℕ → ℚ) × Bool :=
  if l pos < minlsf then (Function.update l pos minlsf, true) else (l, false)

/-- `if (lsf[pos] > maxlsf) { lsf[pos] = maxlsf; change = 1; }`. -/
def clampMax (l : ℕ → ℚ) (pos : ℕ) : (ℕ → ℚ) × Bool :=
  if l pos > maxlsf then (Function.update l pos maxlsf, true) else (l, false)

/-- The body of the innermost `k` loop of `LSF_check`: separation
repair, then both clamps, or-ing every repair into the sticky flag. -/
def lsfStep (st : (ℕ → ℚ) × Bool) (pos : ℕ) : (ℕ → ℚ) × Bool :=
  let s := sepStep st.1 pos
  let c1 := clampMin s.1 pos
  let c2 := clampMax c1.1 pos
  (c2.1, st.2 || s.2 || c1.2 || c2.2)

/-- The flat positions `m*dim + k` visited by one pass of `LSF_check`,
in visit order (`m < NoAn`, `k < dim - 1`). -/
def lsfPositions (dim NoAn : ℕ) : List ℕ :=
  (List.range NoAn).flatMap fun m => (List.range (dim - 1)).map fun k => m * dim + k

/-- `LSF_check(lsf, dim, NoAn)`: `Nit = 2` passes over the table,
returning the repaired table and the sticky `change` flag. -/
def LSF_check (lsf : ℕ → ℚ) (dim NoAn : ℕ) : (ℕ → ℚ) × Bool :=
  (List.range 2).foldl (fun st _ => (lsfPositions dim NoAn).foldl lsfStep st) (lsf, false)

/-- Whether the element step at `pos` applies some repair to the table
`l`: the pair gap is below `eps`, or `lsf[pos]` is outside
`[minlsf, maxlsf]`.  (When the separation repair does not fire the
clamps test the unmodified `lsf[pos]`; when it does fire the flag is
already set.) -/
def repairNeeded (l : ℕ → ℚ) (pos : ℕ) : Bool :=
  decide (l (pos + 1) - l pos < eps) || decide (l pos < minlsf) || decide (maxlsf < l pos)

theorem LSF_check_eq (lsf : ℕ → ℚ) (dim NoAn : ℕ) :
    LSF_check lsf dim NoAn
      = (lsfPositions dim NoAn).foldl lsfStep
          ((lsfPositions dim NoAn).foldl lsfStep (lsf, false)) := rfl

theorem sepStep_frame (l : ℕ → ℚ) (pos i : ℕ) (h1 : i ≠ pos) (h2 : i ≠ pos + 1) :
    (sepStep l pos).1 i = l i := by
  unfold sepStep
  split_ifs <;> simp [Function.update_apply, h1, h2]

theorem clampMin_frame (l : ℕ → ℚ) (pos i : ℕ) (h1 : i ≠ pos) :
    (clampMin l pos).1 i = l i := by
  unfold clampMin
  split_ifs <;> simp [Function.update_apply, h1]

theorem clampMax_frame (l : ℕ → ℚ) (pos i : ℕ) (h1 : i ≠ pos) :
    (clampMax l pos).1 i = l i := by
  unfold clampMax
  split_ifs <;> simp [Function.update_apply, h1]

theorem lsfStep_frame (st : (ℕ → ℚ) × Bool) (pos i : ℕ) (h1 : i ≠ pos) (h2 : i ≠ pos + 1) :
    (lsfStep st pos).1 i = st.1 i := by
  show (clampMax (clampMin (sepStep st.1 pos).1 pos).1 pos).1 i = st.1 i
  rw [clampMax_frame _ _ _ h1, clampMin_frame _ _ _ h1, sepStep_frame _ _ _ h1 h2]

theorem clampMin_lb (l : ℕ → ℚ) (pos : ℕ) : minlsf ≤ (clampMin l pos).1 pos := by
  unfold clampMin
  split_ifs with h
  · simp
  · simpa using not_lt.mp h

theorem clampMax_ub (l : ℕ → ℚ) (pos : ℕ) : (clampMax l pos).1 pos ≤ maxlsf := by
  unfold clampMax
  split_ifs with h
  · simp
  · simpa using not_lt.mp h

theorem clampMax_lb (l : ℕ → ℚ) (pos : ℕ) (h : minlsf ≤ l pos) :
    minlsf ≤ (clampMax l pos).1 pos := by
  unfold clampMax
  split_ifs with h2
  · simp
    decide
  · simpa using h

theorem lsfStep_clamped (st : (ℕ → ℚ) × Bool) (pos : ℕ) :
    minlsf ≤ (lsfStep st pos).1 pos ∧ (lsfStep st pos).1 pos ≤ maxlsf := by
  show minlsf ≤ (clampMax (clampMin (sepStep st.1 pos).1 pos).1 pos).1 pos
    ∧ (clampMax (clampMin (sepStep st.1 pos).1 pos).1 pos).1 pos ≤ maxlsf
  exact ⟨clampMax_lb _ _ (clampMin_lb _ _), clampMax_ub _ _⟩

theorem lsfStep_flag (l : ℕ → ℚ) (c : Bool) (pos : ℕ) :
    (lsfStep (l, c) pos).2 = (c || repairNeeded l pos) := by
  show (c || (sepStep l pos).2 || (clampMin (sepStep l pos).1 pos).2
      || (clampMax (clampMin (sepStep l pos).1 pos).1 pos).2) = (c || repairNeeded l pos)
  by_cases hA : l (pos + 1) - l pos < eps
  · have h1 : (sepStep l pos).2 = true := by
      unfold sepStep
      rw [if_pos hA]
      split_ifs <;> rfl
    rw [h1]
    unfold repairNeeded
    rw [decide_eq_true hA]
    simp
  · have hsep : sepStep l pos = (l, false) := by
      unfold sepStep
      rw [if_neg hA]
    rw [hsep]
    by_cases hB : l pos < minlsf
    · have hmin : clampMin l pos = (Function.update l pos minlsf, true) := by
        unfold clampMin
        rw [if_pos hB]
      rw [hmin]
      unfold repairNeeded
      rw [decide_eq_true hB, decide_eq_false hA]
      simp
    · have hmin : clampMin l pos = (l, false) := by
        unfold clampMin
        rw [if_neg hB]
      rw [hmin]
      by_cases hC : maxlsf < l pos
      · have hmax : clampMax l pos = (Function.update l pos maxlsf, true) := by
          unfold clampMax
          rw [if_pos hC]
        rw [hmax]
        unfold repairNeeded
        rw [decide_eq_true hC, decide_eq_false hA, decide_eq_false hB]
        simp
      · have hmax : clampMax l pos = (l, false) := by
          unfold clampMax
          rw [if_neg hC]
        rw [hmax]
        unfold repairNeeded
        rw [decide_eq_false hA, decide_eq_false hB, decide_eq_false hC]
        simp

theorem lsfStep_id (l : ℕ → ℚ) (c : Bool) (pos : ℕ) (h : repairNeeded l pos = false) :
    lsfStep (l, c) pos = (l, c) := by
  unfold repairNeeded at h
  simp only [Bool.or_eq_false_iff, decide_eq_false_iff_not] at h
  obtain ⟨⟨hA, hB⟩, hC⟩ := h
  have hsep : sepStep l pos = (l, false) := by
    unfold sepStep
    rw [if_neg hA]
  have hmin : clampMin l pos = (l, false) := by
    unfold clampMin
    rw [if_neg hB]
  have hmax : clampMax l pos = (l, false) := by
    unfold clampMax
    rw [if_neg hC]
  show ((clampMax (clampMin (sepStep l pos).1 pos).1 pos).1,
    c || (sepStep l pos).2 || (clampMin (sepStep l pos).1 pos).2
      || (clampMax (clampMin (sepStep l pos).1 pos).1 pos).2) = (l, c)
  rw [hsep]
  rw [hmin]
  rw [hmax]
  simp

theorem lsfStep_sticky (st : (ℕ → ℚ) × Bool) (pos : ℕ) (h : st.2 = true) :
    (lsfStep st pos).2 = true := by
  obtain ⟨l, c⟩ := st
  simp only at h
  subst h
  rw [lsfStep_flag]
  simp

theorem foldl_lsfStep_sticky (L : List ℕ) :
    ∀ st : (ℕ → ℚ) × Bool, st.2 = true → (L.foldl lsfStep st).2 = true := by
  induction L with
  | nil => intro st h; exact h
  | cons p L ih =>
      intro st h
      rw [List.foldl_cons]
      exact ih _ (lsfStep_sticky st p h)

theorem foldl_lsfStep_id (l : ℕ → ℚ) :
    ∀ L : List ℕ, (∀ pos ∈ L, repairNeeded l pos = false) →
      L.foldl lsfStep (l, false) = (l, false) := by
  intro L
  induction L with
  | nil => intro _; rfl
  | cons p L ih =>
      intro h
      rw [List.foldl_cons, lsfStep_id l false p (h p (List.mem_cons_self p L))]
      exact ih fun pos hp => h pos (List.mem_cons_of_mem p hp)

theorem foldl_lsfStep_flag_false (l : ℕ → ℚ) :
    ∀ L : List ℕ, (L.foldl lsfStep (l, false)).2 = false →
      ∀ pos ∈ L, repairNeeded l pos = false := by
  intro L
  induction L with
  | nil => intro _ pos hp; simp at hp
  | cons p L ih =>
      intro h pos hp
      have hp0 : repairNeeded l p = false := by
        cases hrn : repairNeeded l p
        · rfl
        · exfalso
          have hflag : (lsfStep (l, false) p).2 = true := by
            rw [lsfStep_flag, hrn]
            simp
          have hst := foldl_lsfStep_sticky L (lsfStep (l, false) p) hflag
          rw [List.foldl_cons] at h
          rw [h] at hst
          exact Bool.false_ne_true hst
      rcases List.mem_cons.mp hp with rfl | hp'
      · exact hp0
      · rw [List.foldl_cons, lsfStep_id l false p hp0] at h
        exact ih h pos hp'

theorem mem_lsfPositions {dim NoAn q : ℕ} :
    q ∈ lsfPositions dim NoAn
      ↔ ∃ m, m < NoAn ∧ ∃ k, k < dim - 1 ∧ m * dim + k = q := by
  unfold lsfPositions
  simp [List.mem_flatMap]

theorem lsfPositions_bound {dim NoAn q : ℕ} (h : q ∈ lsfPositions dim NoAn) :
    q < NoAn * dim := by
  obtain ⟨m, hm, k, hk, rfl⟩ := mem_lsfPositions.mp h
  calc m * dim + k < m * dim + dim := by omega
  _ = (m + 1) * dim := by ring
  _ ≤ NoAn * dim := Nat.mul_le_mul_right dim (by omega)

theorem lsfPositions_sorted (dim NoAn : ℕ) : (lsfPositions dim NoAn).Pairwise (· < ·) := by
  induction NoAn with
  | zero =>
      unfold lsfPositions
      simp
  | succ n ih =>
      have hsplit : lsfPositions dim (n + 1)
          = lsfPositions dim n ++ (List.range (dim - 1)).map (fun k => n * dim + k) := by
        unfold lsfPositions
        rw [List.range_succ, List.flatMap_append]
        simp
      rw [hsplit, List.pairwise_append]
      refine ⟨ih, ?_, ?_⟩
      · rw [List.pairwise_map]
        exact (List.pairwise_lt_range _).imp (by omega)
      · intro a ha b hb
        obtain ⟨k, hk, rfl⟩ := List.mem_map.mp hb
        have hb1 : a < n * dim := lsfPositions_bound ha
        omega

theorem foldl_lsfStep_preserve (q : ℕ) :
    ∀ (L : List ℕ) (st : (ℕ → ℚ) × Bool), (∀ p ∈ L, q < p) →
      (L.foldl lsfStep st).1 q = st.1 q := by
  intro L
  induction L with
  | nil => intro st _; rfl
  | cons p L ih =>
      intro st h
      rw [List.foldl_cons]
      rw [ih _ (fun r hr => h r (List.mem_cons_of_mem p hr))]
      have hq1 : q ≠ p := by
        have := h p (List.mem_cons_self p L)
        omega
      have hq2 : q ≠ p + 1 := by
        have := h p (List.mem_cons_self p L)
        omega
      exact lsfStep_frame st p q hq1 hq2

theorem foldl_lsfStep_mem_clamped :
    ∀ (L : List ℕ) (st : (ℕ → ℚ) × Bool) (q : ℕ), L.Pairwise (· < ·) → q ∈ L →
      minlsf ≤ (L.foldl lsfStep st).1 q ∧ (L.foldl lsfStep st).1 q ≤ maxlsf := by
  intro L
  induction L with
  | nil => intro st q _ hq; simp at hq
  | cons p L ih =>
      intro st q hpw hq
      rw [List.foldl_cons]
      rcases List.mem_cons.mp hq with rfl | hq'
      · have hgt : ∀ r ∈ L, q < r := fun r hr => (List.pairwise_cons.mp hpw).1 r hr
        rw [foldl_lsfStep_preserve q L (lsfStep st q) hgt]
        exact lsfStep_clamped st q
      · exact ih (lsfStep st p) q (List.pairwise_cons.mp hpw).2 hq'

/-- C1 counterexample: on the table `[0, 0, 1, 5]` (`dim = 4`,
`NoAn = 1`) the claim fails after `LSF_check` returns: the first
adjacent gap is still below `eps` (the min-clamp of `lsf[0]` keeps
undoing part of the separation repair), and the last coefficient
`lsf[3] = 5` is never range-checked (the `k` loop clamps only
`lsf[m*dim+k]` for `k < dim-1`), so it stays above `maxlsf`. -/
theorem LSF_check_invariant_counterexample :
    (LSF_check (fun n => if n ≤ 1 then 0 else if n = 2 then 1 else 5) 4 1).1 1
        - (LSF_check (fun n => if n ≤ 1 then 0 else if n = 2 then 1 else 5) 4 1).1 0 < eps
    ∧ maxlsf
        < (LSF_check (fun n => if n ≤ 1 then 0 else if n = 2 then 1 else 5) 4 1).1 3 := by
  set_option maxRecDepth 100000 in
  with_unfolding_all decide

/-- C1 amended: after `LSF_check` returns, every coefficient at
position `k < dim - 1` of every vector lies in `[minlsf, maxlsf]` (the
last coefficient of each vector is never clamped, and the minimum-gap
property is not guaranteed on adversarial inputs). -/
theorem LSF_check_range (lsf : ℕ → ℚ) (dim NoAn m p : ℕ)
    (hm : m < NoAn) (hp : p + 1 < dim) :
    minlsf ≤ (LSF_check lsf dim NoAn).1 (m * dim + p)
    ∧ (LSF_check lsf dim NoAn).1 (m * dim + p) ≤ maxlsf := by
  have hmem : m * dim + p ∈ lsfPositions dim NoAn :=
    mem_lsfPositions.mpr ⟨m, hm, p, by omega, rfl⟩
  rw [LSF_check_eq]
  exact foldl_lsfStep_mem_clamped (lsfPositions dim NoAn) _ _
    (lsfPositions_sorted dim NoAn) hmem

/-- Witness for the amended C1 on the all-zero table, `dim = 2`,
`NoAn = 1`, coefficient (0,0). -/
theorem LSF_check_range_witness :
    minlsf ≤ (LSF_check (fun _ => 0) 2 1).1 0
    ∧ (LSF_check (fun _ => 0) 2 1).1 0 ≤ maxlsf :=
  LSF_check_range (fun _ => 0) 2 1 0 0 (by decide) (by decide)

/-- C4: when the pair at `pos` is inverted on entry to the separation
repair, the repair keeps `lsf[pos]` and rebuilds `lsf[pos+1]` as
`lsf[pos] + eps2`, so immediately after the repair step
`lsf[pos] < lsf[pos+1]`: monotonic ordering is restored for the pair. -/
theorem sepStep_inverted (l : ℕ → ℚ) (pos : ℕ) (h : l (pos + 1) < l pos) :
    (sepStep l pos).1 pos = l pos
    ∧ (sepStep l pos).1 (pos + 1) = l pos + eps2
    ∧ (sepStep l pos).1 pos < (sepStep l pos).1 (pos + 1) := by
  have heps : (0 : ℚ) < eps := by decide
  have heps2 : (0 : ℚ) < eps2 := by decide
  have hgap : l (pos + 1) - l pos < eps := by linarith
  have hkey : sepStep l pos
      = (Function.update (Function.update l (pos + 1) (l pos + eps2)) pos
          ((Function.update l (pos + 1) (l pos + eps2)) (pos + 1) - eps2), true) := by
    unfold sepStep
    rw [if_pos hgap, if_pos h]
  have h0 : (sepStep l pos).1 pos = l pos := by
    rw [hkey]
    simp [Function.update_apply]
  have h1 : (sepStep l pos).1 (pos + 1) = l pos + eps2 := by
    rw [hkey]
    simp [Function.update_apply]
  refine ⟨h0, h1, ?_⟩
  rw [h0, h1]
  linarith

/-- Witness for C4 on the inverted pair `(1, 0)` at position 0. -/
theorem sepStep_inverted_witness :
    (sepStep (fun n => if n = 0 then 1 else 0) 0).1 0
      < (sepStep (fun n => if n = 0 then 1 else 0) 0).1 1 :=
  (sepStep_inverted (fun n => if n = 0 then 1 else 0) 0 (by decide)).2.2

/-- C9: the sticky `change` flag of `LSF_check` is set iff some element
of the input table needs a repair (gap below `eps`, or a clamped
coefficient out of range); when it returns `false`, the table is left
exactly equal to its input. -/
theorem LSF_check_sticky_flag (lsf : ℕ → ℚ) (dim NoAn : ℕ) :
    ((LSF_check lsf dim NoAn).2 = true
      ↔ ∃ pos ∈ lsfPositions dim NoAn, repairNeeded lsf pos = true)
    ∧ ((LSF_check lsf dim NoAn).2 = false → (LSF_check lsf dim NoAn).1 = lsf) := by
  have hmain : (LSF_check lsf dim NoAn).2 = false ↔
      ∀ pos ∈ lsfPositions dim NoAn, repairNeeded lsf pos = false := by
    constructor
    · intro h
      rw [LSF_check_eq] at h
      have h1 : ((lsfPositions dim NoAn).foldl lsfStep (lsf, false)).2 = false := by
        cases h1t : ((lsfPositions dim NoAn).foldl lsfStep (lsf, false)).2
        · rfl
        · exfalso
          have := foldl_lsfStep_sticky (lsfPositions dim NoAn) _ h1t
          rw [h] at this
          exact Bool.false_ne_true this
      exact foldl_lsfStep_flag_false lsf _ h1
    · intro h
      have hpass := foldl_lsfStep_id lsf (lsfPositions dim NoAn) h
      rw [LSF_check_eq, hpass, hpass]
  constructor
  · constructor
    · intro h
      by_contra hcon
      push_neg at hcon
      have hall : ∀ pos ∈ lsfPositions dim NoAn, repairNeeded lsf pos = false :=
        fun pos hp => Bool.eq_false_iff.mpr (hcon pos hp)
      have := hmain.mpr hall
      rw [h] at this
      simp at this
    · rintro ⟨pos, hp, hrn⟩
      cases hfl : (LSF_check lsf dim NoAn).2
      · exfalso
        have := hmain.mp hfl pos hp
        rw [hrn] at this
        simp at this
      · rfl
  · intro h
    have hall := hmain.mp h
    have hpass := foldl_lsfStep_id lsf (lsfPositions dim NoAn) hall
    rw [LSF_check_eq, hpass, hpass]

/-- Witness for C9 on the already-stable table `[1, 2]`: the flag is
`false` and the table is returned unchanged. -/
theorem LSF_check_sticky_flag_witness :
    (LSF_check (fun n => if n = 0 then 1 else 2) 2 1).1
      = (fun n => if n = 0 then 1 else 2) :=
  (LSF_check_sticky_flag (fun n => if n = 0 then 1 else 2) 2 1).2
    (by with_unfolding_all decide)

end Ilbc
